import Mathlib

/-!
Shallow embedding of the `mnn.rn` native core
(`android/src/main/cpp/utf8_stream_processor.cpp` and
`android/src/main/cpp/llm_session.cpp`), together with proofs about the
properties the specification states for it.

Bytes are modelled as `Nat` (the C++ code works on `unsigned char` and only
ever inspects the low 8 bits through masks); byte strings are `List Nat`.
A decoded character is the byte slice the processor hands to its callback.
-/

namespace Mnn

/-! ## Utf8StreamProcessor (utf8_stream_processor.cpp) -/

/-- `Utf8StreamProcessor::isValidUtf8Start`: ASCII or a 2/3/4-byte lead. -/
def isValidUtf8Start (b : Nat) : Bool :=
  (b &&& 0x80 == 0x00) || (b &&& 0xE0 == 0xC0) || (b &&& 0xF0 == 0xE0) ||
    (b &&& 0xF8 == 0xF0)

/-- `Utf8StreamProcessor::getUtf8CharLength`; `none` models the C++ `-1`. -/
def utf8CharLength (b : Nat) : Option Nat :=
  if b &&& 0x80 == 0x00 then some 1
  else if b &&& 0xE0 == 0xC0 then some 2
  else if b &&& 0xF0 == 0xE0 then some 3
  else if b &&& 0xF8 == 0xF0 then some 4
  else none

/-- `Utf8StreamProcessor::isUtf8Continuation`: the `10xxxxxx` pattern. -/
def isUtf8Continuation (b : Nat) : Bool := b &&& 0xC0 == 0x80

/-- Scanning loop of `Utf8StreamProcessor::processCompleteCharacters`.

The C++ loop advances a scan position over the buffer; here the consumed
prefix is dropped instead and the walk is driven by a fuel that starts at
the buffer length (each step consumes at least one byte, so that fuel always
suffices).  The result is the emitted characters, in callback order, and the
bytes kept in the buffer. -/
def pccGo : Nat → List Nat → List (List Nat) × List Nat
  | 0, buf => ([], buf)
  | _ + 1, [] => ([], [])
  | fuel + 1, b :: rest =>
    if isValidUtf8Start b = false then
      -- skip invalid byte
      pccGo fuel rest
    else
      match utf8CharLength b with
      | none => pccGo fuel rest
      | some charLen =>
        if rest.length + 1 < charLen then
          -- incomplete character, wait for more data
          ([], b :: rest)
        else if (((b :: rest).take charLen).drop 1).all isUtf8Continuation then
          let r := pccGo fuel ((b :: rest).drop charLen)
          (((b :: rest).take charLen) :: r.1, r.2)
        else
          -- skip invalid sequence
          pccGo fuel rest

/-- `Utf8StreamProcessor::processCompleteCharacters` on a buffer value. -/
def processCompleteCharacters (buf : List Nat) : List (List Nat) × List Nat :=
  pccGo buf.length buf

/-- `Utf8StreamProcessor::processStream`: append the data to the buffer and
extract the complete characters.  Takes the current buffer, returns the
emitted characters and the new buffer. -/
def processStream (buffer data : List Nat) : List (List Nat) × List Nat :=
  if data.isEmpty then ([], buffer)
  else processCompleteCharacters (buffer ++ data)

/-- Feed a sequence of chunks through one `Utf8StreamProcessor`, starting
from the given buffer; collect every emitted character in order. -/
def feedChunks : List Nat → List (List Nat) → List (List Nat) × List Nat
  | buf, [] => ([], buf)
  | buf, d :: ds =>
    let r := processStream buf d
    let r2 := feedChunks r.2 ds
    (r.1 ++ r2.1, r2.2)

/-! ### Basic facts about the byte classifiers -/

theorem utf8CharLength_isSome_of_start {b : Nat}
    (h : isValidUtf8Start b = true) : ∃ L, utf8CharLength b = some L := by
  unfold isValidUtf8Start at h
  unfold utf8CharLength
  rcases Bool.or_eq_true_iff.mp h with h | h3
  · rcases Bool.or_eq_true_iff.mp h with h | h2
    · rcases Bool.or_eq_true_iff.mp h with h0 | h1
      · exact ⟨1, by simp [h0]⟩
      · by_cases c0 : b &&& 0x80 == 0x00 <;> simp [c0, h1]
    · by_cases c0 : b &&& 0x80 == 0x00
      · exact ⟨1, by simp [c0]⟩
      · by_cases c1 : b &&& 0xE0 == 0xC0 <;> simp [c0, c1, h2]
  · by_cases c0 : b &&& 0x80 == 0x00
    · exact ⟨1, by simp [c0]⟩
    · by_cases c1 : b &&& 0xE0 == 0xC0
      · exact ⟨2, by simp [c0, c1]⟩
      · by_cases c2 : b &&& 0xF0 == 0xE0 <;> simp [c0, c1, c2, h3]

theorem start_of_utf8CharLength_eq_some {b L : Nat}
    (h : utf8CharLength b = some L) : isValidUtf8Start b = true := by
  unfold utf8CharLength at h
  unfold isValidUtf8Start
  by_cases c0 : b &&& 0x80 == 0x00
  · simp [c0]
  · by_cases c1 : b &&& 0xE0 == 0xC0
    · simp [c0, c1]
    · by_cases c2 : b &&& 0xF0 == 0xE0
      · simp [c0, c1, c2]
      · by_cases c3 : b &&& 0xF8 == 0xF0
        · simp [c0, c1, c2, c3]
        · simp [c0, c1, c2, c3] at h

theorem utf8CharLength_bounds {b L : Nat}
    (h : utf8CharLength b = some L) : 1 ≤ L ∧ L ≤ 4 := by
  unfold utf8CharLength at h
  by_cases c0 : b &&& 0x80 == 0x00
  · simp [c0] at h; omega
  · by_cases c1 : b &&& 0xE0 == 0xC0
    · simp [c0, c1] at h; omega
    · by_cases c2 : b &&& 0xF0 == 0xE0
      · simp [c0, c1, c2] at h; omega
      · by_cases c3 : b &&& 0xF8 == 0xF0
        · simp [c0, c1, c2, c3] at h; omega
        · simp [c0, c1, c2, c3] at h

/-! ### Fuel irrelevance and the step equations of the scanner -/

theorem pccGo_nil (fuel : Nat) : pccGo fuel [] = ([], []) := by
  cases fuel <;> rfl

theorem pccGo_succ_cons (fuel b : Nat) (rest : List Nat) :
    pccGo (fuel + 1) (b :: rest) =
      if isValidUtf8Start b = false then pccGo fuel rest
      else
        match utf8CharLength b with
        | none => pccGo fuel rest
        | some charLen =>
          if rest.length + 1 < charLen then ([], b :: rest)
          else if (((b :: rest).take charLen).drop 1).all isUtf8Continuation then
            (((b :: rest).take charLen) ::
               (pccGo fuel ((b :: rest).drop charLen)).1,
             (pccGo fuel ((b :: rest).drop charLen)).2)
          else pccGo fuel rest := rfl

theorem pccGo_fuel_eq :
    ∀ f1 f2 buf, buf.length ≤ f1 → buf.length ≤ f2 →
      pccGo f1 buf = pccGo f2 buf := by
  intro f1
  induction f1 with
  | zero =>
    intro f2 buf h1 _
    have : buf = [] := List.eq_nil_of_length_eq_zero (Nat.le_zero.mp h1)
    subst this
    simp [pccGo_nil]
  | succ g ih =>
    intro f2 buf h1 h2
    match buf, f2 with
    | [], _ => simp [pccGo_nil]
    | b :: rest, 0 => simp at h2
    | b :: rest, g2 + 1 =>
      simp only [List.length_cons] at h1 h2
      have hr1 : rest.length ≤ g := by omega
      have hr2 : rest.length ≤ g2 := by omega
      rw [pccGo_succ_cons, pccGo_succ_cons]
      by_cases hv : isValidUtf8Start b = false
      · simp only [hv, if_true]
        exact ih g2 rest hr1 hr2
      · have hv' : isValidUtf8Start b = true := by simpa using hv
        rcases utf8CharLength_isSome_of_start hv' with ⟨L, hL⟩
        rw [if_neg hv, if_neg hv]
        simp only [hL]
        by_cases hinc : rest.length + 1 < L
        · rw [if_pos hinc, if_pos hinc]
        · rw [if_neg hinc, if_neg hinc]
          by_cases hcont :
              (((b :: rest).take L).drop 1).all isUtf8Continuation = true
          · have hlen : ((b :: rest).drop L).length ≤ g := by
              simp only [List.length_drop, List.length_cons]
              have := (utf8CharLength_bounds hL).1
              omega
            have hlen2 : ((b :: rest).drop L).length ≤ g2 := by
              simp only [List.length_drop, List.length_cons]
              have := (utf8CharLength_bounds hL).1
              omega
            rw [if_pos hcont, if_pos hcont, ih g2 _ hlen hlen2]
          · rw [if_neg hcont, if_neg hcont]
            exact ih g2 rest hr1 hr2

theorem pcc_nil : processCompleteCharacters [] = ([], []) := rfl

theorem pcc_skip {b : Nat} (rest : List Nat)
    (h : isValidUtf8Start b = false) :
    processCompleteCharacters (b :: rest) = processCompleteCharacters rest := by
  show pccGo (rest.length + 1) (b :: rest) = pccGo rest.length rest
  rw [pccGo_succ_cons, if_pos h]

theorem pcc_incomplete {b L : Nat} (rest : List Nat)
    (hL : utf8CharLength b = some L) (hlt : rest.length + 1 < L) :
    processCompleteCharacters (b :: rest) = ([], b :: rest) := by
  show pccGo (rest.length + 1) (b :: rest) = ([], b :: rest)
  rw [pccGo_succ_cons]
  have hv : ¬ isValidUtf8Start b = false := by
    simp [start_of_utf8CharLength_eq_some hL]
  rw [if_neg hv]
  simp only [hL]
  rw [if_pos hlt]

theorem pcc_emit {b L : Nat} (rest : List Nat)
    (hL : utf8CharLength b = some L) (hge : L ≤ rest.length + 1)
    (hcont : (((b :: rest).take L).drop 1).all isUtf8Continuation = true) :
    processCompleteCharacters (b :: rest) =
      (((b :: rest).take L) :: (processCompleteCharacters ((b :: rest).drop L)).1,
       (processCompleteCharacters ((b :: rest).drop L)).2) := by
  show pccGo (rest.length + 1) (b :: rest) = _
  rw [pccGo_succ_cons]
  have hv : ¬ isValidUtf8Start b = false := by
    simp [start_of_utf8CharLength_eq_some hL]
  have hnot : ¬ rest.length + 1 < L := by omega
  have hfuel : ((b :: rest).drop L).length ≤ rest.length := by
    simp only [List.length_drop, List.length_cons]
    have := (utf8CharLength_bounds hL).1
    omega
  rw [if_neg hv]
  simp only [hL]
  rw [if_neg hnot, if_pos hcont,
    pccGo_fuel_eq rest.length ((b :: rest).drop L).length _ hfuel (Nat.le_refl _)]
  rfl

theorem pcc_badcont {b L : Nat} (rest : List Nat)
    (hL : utf8CharLength b = some L) (hge : L ≤ rest.length + 1)
    (hcont : (((b :: rest).take L).drop 1).all isUtf8Continuation = false) :
    processCompleteCharacters (b :: rest) = processCompleteCharacters rest := by
  show pccGo (rest.length + 1) (b :: rest) = pccGo rest.length rest
  rw [pccGo_succ_cons]
  have hv : ¬ isValidUtf8Start b = false := by
    simp [start_of_utf8CharLength_eq_some hL]
  have hnot : ¬ rest.length + 1 < L := by omega
  have hcont' : ¬ (((b :: rest).take L).drop 1).all isUtf8Continuation = true := by
    rw [hcont]; exact Bool.false_ne_true
  rw [if_neg hv]
  simp only [hL]
  rw [if_neg hnot, if_neg hcont']

/-! ### Validity of characters and of buffer remainders -/

/-- A byte slice the scanner accepts as one complete character: a recognized
lead byte whose declared length is the slice length, followed by
continuation bytes. -/
def validCharB : List Nat → Bool
  | [] => false
  | b :: tail =>
    isValidUtf8Start b && (utf8CharLength b == some (tail.length + 1)) &&
      tail.all isUtf8Continuation

/-- A (possibly empty) strict prefix of a valid character: the retained
bytes are fewer than the lead byte's declared length. -/
def properPrefixB : List Nat → Bool
  | [] => true
  | b :: tail =>
    isValidUtf8Start b &&
      (match utf8CharLength b with
       | some L => decide (tail.length + 1 < L) && tail.all isUtf8Continuation
       | none => false)

/-- The internal-buffer invariant of claim C10: at most 3 bytes retained,
and a non-empty remainder starts with a recognized lead byte whose declared
length strictly exceeds the number of retained bytes. -/
def bufferInvariant : List Nat → Bool
  | [] => true
  | b :: tail =>
    decide (tail.length + 1 ≤ 3) && isValidUtf8Start b &&
      (match utf8CharLength b with
       | some L => decide (tail.length + 1 < L)
       | none => false)

theorem ascii_classified : ∀ x : Nat, x < 128 →
    isValidUtf8Start x = true ∧ utf8CharLength x = some 1 := by decide

theorem pcc_ascii_emit {x : Nat} (t : List Nat) (hx : x < 128) :
    processCompleteCharacters (x :: t) =
      ([x] :: (processCompleteCharacters t).1, (processCompleteCharacters t).2) := by
  have h1 := (ascii_classified x hx).2
  have := pcc_emit (L := 1) t h1 (by omega) (by simp)
  simpa using this

theorem pcc_ascii_run (a : List Nat) (t : List Nat) (ha : ∀ x ∈ a, x < 128) :
    processCompleteCharacters (a ++ t) =
      (a.map (fun x => [x]) ++ (processCompleteCharacters t).1,
       (processCompleteCharacters t).2) := by
  induction a with
  | nil => simp
  | cons x a ih =>
    have hx : x < 128 := ha x (by simp)
    have ha' : ∀ y ∈ a, y < 128 := fun y hy => ha y (by simp [hy])
    rw [List.cons_append, pcc_ascii_emit (a ++ t) hx, ih ha']
    simp

/-- After any scan, the retained bytes satisfy the buffer invariant. -/
theorem invariant_of_pcc :
    ∀ t : List Nat, bufferInvariant (processCompleteCharacters t).2 = true := by
  have main : ∀ n t, List.length t ≤ n →
      bufferInvariant (processCompleteCharacters t).2 = true := by
    intro n
    induction n with
    | zero =>
      intro t ht
      have : t = [] := List.eq_nil_of_length_eq_zero (Nat.le_zero.mp ht)
      subst this
      rw [pcc_nil]
      rfl
    | succ m ih =>
      intro t ht
      match t with
      | [] => rw [pcc_nil]; rfl
      | b :: rest =>
        simp only [List.length_cons] at ht
        by_cases hv : isValidUtf8Start b = false
        · rw [pcc_skip rest hv]
          exact ih rest (by omega)
        · have hv' : isValidUtf8Start b = true := by simpa using hv
          rcases utf8CharLength_isSome_of_start hv' with ⟨L, hL⟩
          by_cases hinc : rest.length + 1 < L
          · rw [pcc_incomplete rest hL hinc]
            have hb := (utf8CharLength_bounds hL).2
            unfold bufferInvariant
            simp only [hv', hL]
            have h3 : rest.length + 1 ≤ 3 := by omega
            simp [h3, hinc]
          · have hge : L ≤ rest.length + 1 := by omega
            by_cases hcont :
                (((b :: rest).take L).drop 1).all isUtf8Continuation = true
            · rw [pcc_emit rest hL hge hcont]
              have hlen : ((b :: rest).drop L).length ≤ m := by
                simp only [List.length_drop, List.length_cons]
                have := (utf8CharLength_bounds hL).1
                omega
              exact ih _ hlen
            · have hcont' :
                  (((b :: rest).take L).drop 1).all isUtf8Continuation = false := by
                simpa using hcont
              rw [pcc_badcont rest hL hge hcont']
              exact ih rest (by omega)
  exact fun t => main t.length t (Nat.le_refl _)

theorem validChar_spec {b : Nat} {tail : List Nat}
    (h : validCharB (b :: tail) = true) :
    isValidUtf8Start b = true ∧ utf8CharLength b = some (tail.length + 1) ∧
      tail.all isUtf8Continuation = true := by
  unfold validCharB at h
  rcases Bool.and_eq_true_iff.mp h with ⟨h12, h3⟩
  rcases Bool.and_eq_true_iff.mp h12 with ⟨h1, h2⟩
  exact ⟨h1, by simpa using h2, h3⟩

theorem validChar_ne_nil {c : List Nat} (h : validCharB c = true) : c ≠ [] := by
  intro he
  subst he
  simp [validCharB] at h

/-- The scanner run on a list of valid characters followed by a proper
prefix emits exactly those characters and retains exactly that prefix. -/
theorem pcc_decomp :
    ∀ cs : List (List Nat), ∀ p : List Nat,
      (∀ c ∈ cs, validCharB c = true) → properPrefixB p = true →
      processCompleteCharacters (cs.flatten ++ p) = (cs, p) := by
  intro cs
  induction cs with
  | nil =>
    intro p _ hp
    match p with
    | [] => simpa using pcc_nil
    | b :: tail =>
      unfold properPrefixB at hp
      rcases Bool.and_eq_true_iff.mp hp with ⟨h1, h2⟩
      rcases utf8CharLength_isSome_of_start h1 with ⟨L, hL⟩
      rw [hL] at h2
      rcases Bool.and_eq_true_iff.mp h2 with ⟨hlt, _⟩
      have hlt' : tail.length + 1 < L := of_decide_eq_true hlt
      simpa using pcc_incomplete tail hL hlt'
  | cons c cs ih =>
    intro p hcs hp
    match c, hcs c (by simp) with
    | b :: ctail, hc =>
      rcases validChar_spec hc with ⟨h1, hL, hcont⟩
      have hrest :
          ((b :: ctail) :: cs).flatten ++ p =
            b :: (ctail ++ (cs.flatten ++ p)) := by simp
      rw [hrest]
      have htake :
          (b :: (ctail ++ (cs.flatten ++ p))).take (ctail.length + 1) =
            b :: ctail := by
        rw [List.take_succ_cons, List.take_left]
      have hdrop :
          (b :: (ctail ++ (cs.flatten ++ p))).drop (ctail.length + 1) =
            cs.flatten ++ p := by
        rw [List.drop_succ_cons, List.drop_left]
      have hge : ctail.length + 1 ≤ (ctail ++ (cs.flatten ++ p)).length + 1 := by
        simp only [List.length_append]
        omega
      have hcont' :
          (((b :: (ctail ++ (cs.flatten ++ p))).take
              (ctail.length + 1)).drop 1).all isUtf8Continuation = true := by
        rw [htake]
        simpa using hcont
      rw [pcc_emit _ hL hge hcont', htake, hdrop,
        ih p (fun c hc' => hcs c (by simp [hc'])) hp]

/-- A strict prefix of a valid character is a proper prefix. -/
theorem properPrefix_of_strict {c t : List Nat} (hc : validCharB c = true)
    (ht : t <+: c) (hne : t ≠ c) : properPrefixB t = true := by
  match t with
  | [] => rfl
  | b :: tail =>
    match c with
    | [] => simp [validCharB] at hc
    | b2 :: ctail =>
      rcases List.cons_prefix_cons.mp ht with ⟨hb, htail⟩
      subst hb
      rcases validChar_spec hc with ⟨h1, hL, hcont⟩
      have hlen : tail.length + 1 < ctail.length + 1 := by
        have hle := ht.length_le
        simp only [List.length_cons] at hle
        rcases Nat.lt_or_ge (tail.length + 1) (ctail.length + 1) with h | h
        · exact h
        · exfalso
          exact hne (ht.eq_of_length (by simp; omega))
      have htc : tail.all isUtf8Continuation = true := by
        rw [List.all_eq_true] at hcont ⊢
        exact fun x hx => hcont x (htail.subset hx)
      simp [properPrefixB, h1, hL, hlen, htc]

/-- Any byte-prefix of a valid character sequence splits into whole valid
characters followed by a proper prefix of the next character. -/
theorem prefix_decomp :
    ∀ cs : List (List Nat), ∀ t : List Nat,
      (∀ c ∈ cs, validCharB c = true) → t <+: cs.flatten →
      ∃ (cs1 : List (List Nat)) (p : List Nat),
        t = cs1.flatten ++ p ∧ (∀ c ∈ cs1, validCharB c = true) ∧
        properPrefixB p = true := by
  intro cs
  induction cs with
  | nil =>
    intro t _ ht
    rw [List.flatten_nil, List.prefix_nil] at ht
    exact ⟨[], [], by simp [ht], by simp, rfl⟩
  | cons c cs ih =>
    intro t hcs ht
    rw [List.flatten_cons] at ht
    by_cases hct : c <+: t
    · rcases hct with ⟨t2, rfl⟩
      rcases ht with ⟨r, hr⟩
      rw [List.append_assoc] at hr
      have ht2 : t2 <+: cs.flatten :=
        ⟨r, List.append_cancel_left hr⟩
      rcases ih t2 (fun c hc' => hcs c (by simp [hc'])) ht2 with
        ⟨cs1, p, heq, hv1, hp1⟩
      exact ⟨c :: cs1, p, by simp [heq], by
        intro x hx
        rcases List.mem_cons.mp hx with h | h
        · exact h ▸ hcs c (by simp)
        · exact hv1 x h, hp1⟩
    · have htc : t <+: c := by
        rcases List.prefix_or_prefix_of_prefix ht (List.prefix_append c cs.flatten)
          with h | h
        · exact h
        · exact absurd h hct
      have hne : t ≠ c := fun he => hct (he ▸ List.prefix_rfl)
      exact ⟨[], t, by simp, by simp,
        properPrefix_of_strict (hcs c (by simp)) htc hne⟩

/-- Parsing a byte string into valid characters is left-cancellative: a
valid-character decomposition of a prefix extends to any valid-character
decomposition of the whole. -/
theorem flatten_left_cancel :
    ∀ cs1 cs2 : List (List Nat), ∀ u : List Nat,
      (∀ c ∈ cs1, validCharB c = true) → (∀ c ∈ cs2, validCharB c = true) →
      cs1.flatten ++ u = cs2.flatten →
      ∃ cs3, cs2 = cs1 ++ cs3 ∧ u = cs3.flatten := by
  intro cs1
  induction cs1 with
  | nil =>
    intro cs2 u _ _ h
    exact ⟨cs2, rfl, by simpa using h⟩
  | cons c cs1 ih =>
    intro cs2 u hv1 hv2 h
    match cs2 with
    | [] =>
      exfalso
      rw [List.flatten_cons, List.flatten_nil, List.append_assoc] at h
      exact validChar_ne_nil (hv1 c (by simp)) (List.append_eq_nil.mp h).1
    | c2 :: cs2 =>
      rw [List.flatten_cons, List.flatten_cons, List.append_assoc] at h
      have hc := hv1 c (by simp)
      have hc2 := hv2 c2 (by simp)
      match c, hc, c2, hc2 with
      | b :: ct, hc, b2 :: ct2, hc2 =>
        have hb : b = b2 := by
          have := congrArg (fun l => l.head?) h
          simpa using this
        subst hb
        rcases validChar_spec hc with ⟨_, hL, _⟩
        rcases validChar_spec hc2 with ⟨_, hL2, _⟩
        have hlen : (b :: ct).length = (b :: ct2).length := by
          rw [hL] at hL2
          simpa using Option.some.inj hL2
        rcases List.append_inj h hlen with ⟨hceq, hrest⟩
        rcases ih cs2 u (fun x hx => hv1 x (by simp [hx]))
          (fun x hx => hv2 x (by simp [hx])) hrest with ⟨cs3, rfl, hu⟩
        exact ⟨cs3, by simp [hceq], hu⟩

/-- Chunked feeding of a valid byte string: everything is emitted and the
buffer drains, independently of the chunking. -/
theorem feedChunks_valid :
    ∀ ds : List (List Nat), ∀ p : List Nat, ∀ cs : List (List Nat),
      properPrefixB p = true → (∀ c ∈ cs, validCharB c = true) →
      p ++ ds.flatten = cs.flatten →
      (feedChunks p ds).1.flatten ++ (feedChunks p ds).2 = p ++ ds.flatten ∧
        (feedChunks p ds).2 = [] := by
  intro ds
  induction ds with
  | nil =>
    intro p cs hp hcs h
    have hpnil : p = [] := by
      match cs, p with
      | _, [] => rfl
      | [], b :: tail => simp at h
      | c :: cs, b :: tail =>
        exfalso
        rw [List.flatten_cons] at h
        simp only [List.flatten_nil, List.append_nil] at h
        match c, hcs c (by simp) with
        | b2 :: ct2, hc2 =>
          have hb : b = b2 := by
            have := congrArg (fun l => l.head?) h
            simpa using this
          subst hb
          rcases validChar_spec hc2 with ⟨h1, hL, _⟩
          unfold properPrefixB at hp
          rcases Bool.and_eq_true_iff.mp hp with ⟨_, h2⟩
          rw [hL] at h2
          rcases Bool.and_eq_true_iff.mp h2 with ⟨hlt, _⟩
          have hlt' : tail.length + 1 < ct2.length + 1 := of_decide_eq_true hlt
          have : (b :: ct2).length ≤ (b :: tail).length := by
            rw [h]
            simpa using (List.prefix_append (b :: ct2) cs.flatten).length_le
          simp only [List.length_cons] at this
          omega
    subst hpnil
    exact ⟨rfl, rfl⟩
  | cons d ds ih =>
    intro p cs hp hcs h
    by_cases hd : d = []
    · subst hd
      have hfeed : feedChunks p ([] :: ds) =
          ((feedChunks p ds).1, (feedChunks p ds).2) := by
        simp [feedChunks, processStream]
      rw [hfeed]
      have h' : p ++ ds.flatten = cs.flatten := by simpa using h
      rcases ih p cs hp hcs h' with ⟨h1, h2⟩
      constructor
      · simpa using h1
      · exact h2
    · have hpd : p ++ d <+: cs.flatten := by
        refine ⟨ds.flatten, ?_⟩
        rw [List.append_assoc]
        simpa using h
      rcases prefix_decomp cs (p ++ d) hcs hpd with ⟨cs1, p1, heq, hv1, hp1⟩
      have hpcc : processStream p d = (cs1, p1) := by
        rw [processStream, if_neg (by simpa using hd), heq]
        exact pcc_decomp cs1 p1 hv1 hp1
      have hcancel : cs1.flatten ++ (p1 ++ ds.flatten) = cs.flatten := by
        rw [← List.append_assoc, ← heq, List.append_assoc]
        simpa using h
      rcases flatten_left_cancel cs1 cs (p1 ++ ds.flatten) hv1 hcs hcancel with
        ⟨cs3, hcs3, hrest⟩
      have hv3 : ∀ c ∈ cs3, validCharB c = true := by
        intro c hc'
        exact hcs c (by rw [hcs3]; simp [hc'])
      rcases ih p1 cs3 hp1 hv3 hrest with ⟨ih1, ih2⟩
      have hfeed : feedChunks p (d :: ds) =
          (cs1 ++ (feedChunks p1 ds).1, (feedChunks p1 ds).2) := by
        show (let r := processStream p d
              let r2 := feedChunks r.2 ds
              (r.1 ++ r2.1, r2.2)) = _
        rw [hpcc]
      rw [hfeed]
      refine ⟨?_, ih2⟩
      rw [List.flatten_append, List.append_assoc, ih1,
        ← List.append_assoc, ← heq, List.flatten_cons, List.append_assoc]

/-- A byte string the scanner recognizes as a sequence of complete
characters; every well-formed UTF-8 string satisfies this. -/
def ValidUtf8 (s : List Nat) : Prop :=
  ∃ cs : List (List Nat), (∀ c ∈ cs, validCharB c = true) ∧ cs.flatten = s

/-- C2: for any valid UTF-8 byte string split into arbitrary non-empty
chunks fed sequentially through `processStream`, the concatenation of the
emitted characters equals the original string (and the buffer drains), so
the emitted sequence is invariant under the choice of split. -/
theorem c2_decoder_completeness (chunks : List (List Nat))
    (hne : ∀ d ∈ chunks, d ≠ []) (hv : ValidUtf8 chunks.flatten) :
    (feedChunks [] chunks).1.flatten = chunks.flatten ∧
      (feedChunks [] chunks).2 = [] := by
  rcases hv with ⟨cs, hcs, hflat⟩
  rcases feedChunks_valid chunks [] cs rfl hcs (by simpa using hflat.symm) with
    ⟨h1, h2⟩
  rw [h2, List.append_nil] at h1
  exact ⟨by simpa using h1, h2⟩

theorem c2_decoder_completeness_witness :
    (∀ d ∈ [[0xC3], [0xA9]], d ≠ ([] : List Nat)) ∧
      ((feedChunks [] [[0xC3], [0xA9]]).1.flatten =
          ([[0xC3], [0xA9]] : List (List Nat)).flatten ∧
        (feedChunks [] [[0xC3], [0xA9]]).2 = []) :=
  ⟨by decide,
   c2_decoder_completeness [[0xC3], [0xA9]] (by decide)
     ⟨[[0xC3, 0xA9]], by decide, rfl⟩⟩

/-- C7: an unrecognized byte injected among ASCII bytes is dropped by
itself; every surrounding ASCII character is still emitted and the stream
does not halt (the buffer is left empty). -/
theorem c7_invalid_byte_dropped (a b : List Nat) (bad : Nat)
    (ha : ∀ x ∈ a, x < 128) (hb : ∀ x ∈ b, x < 128)
    (hbad : isValidUtf8Start bad = false) :
    (processStream [] (a ++ bad :: b)).1 =
        a.map (fun x => [x]) ++ b.map (fun x => [x]) ∧
      (processStream [] (a ++ bad :: b)).2 = [] := by
  have hne : (a ++ bad :: b).isEmpty = false := by
    cases a <;> rfl
  rw [processStream, hne]
  simp only [Bool.false_eq_true, if_false, List.nil_append]
  rw [pcc_ascii_run a (bad :: b) ha, pcc_skip b hbad]
  have hb' := pcc_ascii_run b [] hb
  rw [List.append_nil] at hb'
  rw [hb', pcc_nil]
  simp

theorem c7_invalid_byte_dropped_witness :
    (∀ x ∈ [72, 105], x < 128) ∧ (∀ x ∈ [33], x < 128) ∧
      isValidUtf8Start 0xFF = false ∧
      ((processStream [] ([72, 105] ++ 0xFF :: [33])).1 =
          [[72], [105], [33]] ∧
        (processStream [] ([72, 105] ++ 0xFF :: [33])).2 = []) :=
  ⟨by decide, by decide, by decide,
   c7_invalid_byte_dropped [72, 105] [33] 0xFF (by decide) (by decide)
     (by decide)⟩

/-- C8: feeding the first 2 bytes of a 3-byte character emits nothing and
retains them; feeding the remaining byte then emits exactly that one
character and empties the buffer. -/
theorem c8_partial_chunk_holding (e c1 c2 : Nat)
    (he : utf8CharLength e = some 3)
    (hc1 : isUtf8Continuation c1 = true) (hc2 : isUtf8Continuation c2 = true) :
    processStream [] [e, c1] = ([], [e, c1]) ∧
      processStream [e, c1] [c2] = ([[e, c1, c2]], []) := by
  constructor
  · rw [processStream]
    simp only [List.isEmpty_cons, Bool.false_eq_true, if_false, List.nil_append]
    exact pcc_incomplete [c1] he (by simp)
  · rw [processStream]
    simp only [List.isEmpty_cons, Bool.false_eq_true, if_false]
    have hshape : [e, c1] ++ [c2] = e :: [c1, c2] := rfl
    rw [hshape]
    have hcont : (((e :: [c1, c2]).take 3).drop 1).all isUtf8Continuation
        = true := by
      simp [hc1, hc2]
    rw [pcc_emit [c1, c2] he (by simp) hcont]
    simp [pcc_nil]

theorem c8_partial_chunk_holding_witness :
    utf8CharLength 0xE4 = some 3 ∧ isUtf8Continuation 0xB8 = true ∧
      isUtf8Continuation 0xAD = true ∧
      (processStream [] [0xE4, 0xB8] = ([], [0xE4, 0xB8]) ∧
        processStream [0xE4, 0xB8] [0xAD] = ([[0xE4, 0xB8, 0xAD]], [])) :=
  ⟨by decide, by decide, by decide,
   c8_partial_chunk_holding 0xE4 0xB8 0xAD (by decide) (by decide) (by decide)⟩

/-- C10: `processStream` preserves the buffer invariant: the retained bytes
number at most 3 and, when non-empty, start with a recognized lead byte
whose declared length strictly exceeds the retained count.  Since a fresh
processor starts with an empty buffer (which satisfies the invariant), the
invariant holds after every call. -/
theorem c10_buffer_invariant (buf data : List Nat)
    (h : bufferInvariant buf = true) :
    bufferInvariant (processStream buf data).2 = true := by
  rw [processStream]
  by_cases hd : data.isEmpty
  · rw [if_pos hd]
    exact h
  · rw [if_neg hd]
    exact invariant_of_pcc (buf ++ data)

theorem c10_buffer_invariant_witness :
    bufferInvariant [] = true ∧
      bufferInvariant (processStream [] [72, 0xE4, 0xB8]).2 = true :=
  ⟨by decide, c10_buffer_invariant [] [72, 0xE4, 0xB8] (by decide)⟩

/-! ## LlmSession (llm_session.cpp)

Text is modelled as UTF-8 byte lists; a history turn is a role string
paired with the turn text, mirroring the C++ `std::pair<std::string,
std::string>`.  The inference engine is the external collaborator: the
bytes it writes during `llm_->response(...)` and during each
`llm_->generate(1)` call are parameters of the embedded operations, and
calls into it are counted rather than interpreted. -/

/-- String constants from `mls_config.h`, as ASCII byte lists. -/
def R1_USER_START : List Nat := [60, 124, 85, 115, 101, 114, 124, 62]

def R1_ASSISTANT_START : List Nat :=
  [60, 124, 65, 115, 115, 105, 115, 116, 97, 110, 116, 124, 62]

def R1_THINK_START : List Nat := [60, 116, 104, 105, 110, 107, 62, 10]

def R1_THINK_END : List Nat := [60, 47, 116, 104, 105, 110, 107, 62]

def R1_SENTENCE_START : List Nat :=
  [60, 124, 98, 101, 103, 105, 110, 95, 111, 102, 95, 115, 101, 110, 116,
   101, 110, 99, 101, 124, 62]

def R1_SENTENCE_END : List Nat :=
  [60, 124, 101, 110, 100, 95, 111, 102, 95, 115, 101, 110, 116, 101, 110,
   99, 101, 124, 62]

/-- `END_OF_PROMPT` = `"<eop>"` (5 bytes). -/
def END_OF_PROMPT : List Nat := [60, 101, 111, 112, 62]

def DEFAULT_MAX_NEW_TOKENS : Int := 2048

/-- `"You are a helpful assistant."` -/
def DEFAULT_SYSTEM_PROMPT : List Nat :=
  [89, 111, 117, 32, 97, 114, 101, 32, 97, 32, 104, 101, 108, 112, 102,
   117, 108, 32, 97, 115, 115, 105, 115, 116, 97, 110, 116, 46]

/-- `std::string::find(needle)`: index of the first occurrence, `none` for
`npos`. -/
def findSub (needle : List Nat) : List Nat → Option Nat
  | [] => if needle.isPrefixOf [] then some 0 else none
  | b :: rest =>
    if needle.isPrefixOf (b :: rest) then some 0
    else (findSub needle rest).map (· + 1)

/-- `std::isspace` on a byte (C locale). -/
def isSpaceByte (b : Nat) : Bool := b == 32 || (9 ≤ b && b ≤ 13)

/-- `trimLeadingWhitespace`. -/
def trimLeadingWhitespace (s : List Nat) : List Nat := s.dropWhile isSpaceByte

/-- `getUserString`. -/
def getUserString (userContent : List Nat) (forHistory isR1 : Bool) :
    List Nat :=
  if isR1 then
    R1_USER_START ++ userContent ++ R1_ASSISTANT_START ++
      (if forHistory then [] else R1_THINK_START)
  else userContent

/-- `GetSystemPromptString`. -/
def GetSystemPromptString (systemPrompt : List Nat) (isR1 : Bool) :
    List Nat :=
  if isR1 then R1_SENTENCE_START ++ systemPrompt else systemPrompt

/-- `deleteThinkPart`: erase the first `<think>\n ... </think>` block
(inclusive); if either marker is missing, return the text unchanged. -/
def deleteThinkPart (assistantContent : List Nat) : List Nat :=
  match findSub R1_THINK_START assistantContent with
  | none => assistantContent
  | some thinkStart =>
    match findSub R1_THINK_END (assistantContent.drop thinkStart) with
    | none => assistantContent
    | some d =>
      let thinkEnd := thinkStart + d + R1_THINK_END.length
      assistantContent.take thinkStart ++ assistantContent.drop thinkEnd

/-- `getR1AssistantString`: drop everything through `</think>`, trim
leading whitespace, append the sentence-end marker. -/
def getR1AssistantString (assistantContent : List Nat) : List Nat :=
  let stripped :=
    match findSub R1_THINK_END assistantContent with
    | none => assistantContent
    | some pos => assistantContent.drop (pos + R1_THINK_END.length)
  trimLeadingWhitespace stripped ++ R1_SENTENCE_END

/-- One history entry: role string and text bytes. -/
abbrev Turn := String × List Nat

/-- `string::find` + `erase(pos, len)` of the first marker occurrence. -/
def eraseFirstMarker (marker text : List Nat) : List Nat :=
  match findSub marker text with
  | none => text
  | some p => text.take p ++ text.drop (p + marker.length)

/-- Apply `f` to the text of the last turn (`history_.at(size - 1)`);
the C++ `.at` presupposes a non-empty history, which `Response`
guarantees by appending the user turn first. -/
def modifyLastText (f : List Nat → List Nat) : List Turn → List Turn
  | [] => []
  | [t] => [(t.1, f t.2)]
  | t :: ts => t :: modifyLastText f ts

/-- Per-run mutable state visible to the streaming lambda of
`LlmSession::Response` (plus the decoder buffer of the processor that
feeds it). -/
structure RunState where
  decoderBuf : List Nat
  responseBuffer : List Nat
  history : List Turn
  respDebug : List Nat
  generateTextEnd : Bool
  stopRequested : Bool

/-- The per-character lambda of `LlmSession::Response` (lines 134-158). -/
def handleChar (isR1 : Bool) (onProgress : List Nat → Bool → Bool)
    (st : RunState) (c : List Nat) : RunState :=
  let isEop := (findSub END_OF_PROMPT c).isSome
  let st1 :=
    if !isEop then { st with responseBuffer := st.responseBuffer ++ c }
    else
      let responseResult := st.responseBuffer
      let hist1 :=
        if isR1 then modifyLastText (eraseFirstMarker R1_THINK_START) st.history
        else st.history
      let rr1 := if isR1 then getR1AssistantString responseResult
        else responseResult
      let rr2 := trimLeadingWhitespace (deleteThinkPart rr1)
      { st with respDebug := responseResult,
                history := hist1 ++ [("assistant", rr2)] }
  let userStopRequested := onProgress c isEop
  { st1 with generateTextEnd := isEop, stopRequested := userStopRequested }

/-- One chunk written by the engine flows through the stream processor;
each decoded character is handed to the per-character lambda. -/
def feedChunk (isR1 : Bool) (onProgress : List Nat → Bool → Bool)
    (st : RunState) (chunk : List Nat) : RunState :=
  let r := processStream st.decoderBuf chunk
  r.1.foldl (handleChar isR1 onProgress) { st with decoderBuf := r.2 }

/-- State after `llm_->response(history_, ...)` returns, given the chunks
the engine wrote into the stream buffer during that call. -/
def responsePassState (isR1 : Bool) (onProgress : List Nat → Bool → Bool)
    (st0 : RunState) (respondChunks : List (List Nat)) : RunState :=
  respondChunks.foldl (feedChunk isR1 onProgress) st0

/-- The `while (!stop_requested_ && !generate_text_end_ && current_size <
max_new_tokens_)` extension loop.  The fuel is the remaining budget
`max_new_tokens_ - current_size`; the second result counts the
`llm_->generate(1)` calls issued. -/
def extendLoop (isR1 : Bool) (onProgress : List Nat → Bool → Bool)
    (genChunks : Nat → List (List Nat)) :
    Nat → Nat → RunState → RunState × Nat
  | 0, _, st => (st, 0)
  | fuel + 1, i, st =>
    if st.stopRequested || st.generateTextEnd then (st, 0)
    else
      let st1 := (genChunks i).foldl (feedChunk isR1 onProgress) st
      let r := extendLoop isR1 onProgress genChunks fuel (i + 1) st1
      (r.1, r.2 + 1)

/-- Session state.  `loaded` models whether `llm_` is non-null;
`assistantPromptTemplate` models the only key of `current_config_` that a
claim touches. -/
structure LlmSessionState where
  loaded : Bool
  keepHistory : Bool
  isR1 : Bool
  maxNewTokens : Int
  enableAudioOutput : Bool
  history : List Turn
  systemPrompt : List Nat
  assistantPromptTemplate : Option (List Nat)
  promptDebug : List Nat
  respDebug : List Nat
  stopRequested : Bool
  generateTextEnd : Bool

/-- `std::vector::resize(1)`: truncate to the first element, or insert one
default-constructed pair (empty role, empty text) if the vector is empty. -/
def resize1 (h : List Turn) : List Turn :=
  if h.isEmpty then [("", [])] else h.take 1

/-- `importHistory` part of the constructor: alternate user/assistant with
the dialect's templating. -/
def importHistory (isR1 : Bool) (msgs : List (List Nat)) : List Turn :=
  msgs.enum.map (fun p =>
    if isR1 then
      if p.1 % 2 == 0 then ("user", getUserString p.2 true true)
      else ("assistant", getR1AssistantString p.2)
    else
      if p.1 % 2 == 0 then ("user", p.2)
      else ("assistant", deleteThinkPart p.2))

/-- `LlmSession::LlmSession`: config defaults and initial history. -/
def initSession (configMaxNewTokens : Option Int)
    (configSystemPrompt : Option (List Nat)) (keepHistory isR1 : Bool)
    (importedHistory : List (List Nat)) : LlmSessionState :=
  { loaded := false
    keepHistory := keepHistory
    isR1 := isR1
    maxNewTokens := configMaxNewTokens.getD DEFAULT_MAX_NEW_TOKENS
    enableAudioOutput := false
    history :=
      ("system", GetSystemPromptString
          (configSystemPrompt.getD DEFAULT_SYSTEM_PROMPT) isR1) ::
        importHistory isR1 importedHistory
    systemPrompt := configSystemPrompt.getD DEFAULT_SYSTEM_PROMPT
    assistantPromptTemplate := none
    promptDebug := []
    respDebug := []
    stopRequested := false
    generateTextEnd := false }

/-- `LlmSession::Load`, abstracting the engine: afterwards `llm_` is
non-null. -/
def Load (sess : LlmSessionState) : LlmSessionState :=
  { sess with loaded := true }

/-- Result of a generation call: the (opaque) engine context or null, the
mutated session, and counts of the external calls issued. -/
structure GenResult where
  ctx : Option Unit
  sess : LlmSessionState
  respondCalls : Nat
  generateCalls : Nat
  audioCalled : Bool

/-- The run state at the start of a `Response` call, after the
keep-history reset and the user-turn append. -/
def initialRunState (sess : LlmSessionState) (prompt : List Nat) : RunState :=
  { decoderBuf := []
    responseBuffer := []
    history :=
      (if !sess.keepHistory then resize1 sess.history else sess.history) ++
        [("user", getUserString prompt false sess.isR1)]
    respDebug := sess.respDebug
    generateTextEnd := false
    stopRequested := false }

/-- `LlmSession::Response` (lines 121-182).  `respondChunks` are the byte
chunks the engine writes during `llm_->response(...)`; `genChunks i` are
those written during the i-th `llm_->generate(1)` call. -/
def Response (sess : LlmSessionState) (prompt : List Nat)
    (onProgress : List Nat → Bool → Bool)
    (respondChunks : List (List Nat)) (genChunks : Nat → List (List Nat)) :
    GenResult :=
  if !sess.loaded then
    { ctx := none, sess := sess, respondCalls := 0, generateCalls := 0,
      audioCalled := false }
  else
    let st0 := initialRunState sess prompt
    let promptDbg := sess.promptDebug ++ (st0.history.map (·.2)).flatten
    let st1 := responsePassState sess.isR1 onProgress st0 respondChunks
    let lr := extendLoop sess.isR1 onProgress genChunks
      (sess.maxNewTokens - 1).toNat 0 st1
    let st2 := lr.1
    let sessF : LlmSessionState :=
      { sess with
        history := st2.history
        promptDebug := promptDbg
        respDebug := st2.respDebug
        stopRequested := st2.stopRequested
        generateTextEnd := st2.generateTextEnd }
    { ctx := some ()
      sess := sessF
      respondCalls := 1
      generateCalls := lr.2
      audioCalled := !st2.stopRequested && sess.enableAudioOutput }

/-- Run state of `LlmSession::ResponseWithHistory`: its streaming lambda
never touches `history_`. -/
structure ExtRunState where
  decoderBuf : List Nat
  responseBuffer : List Nat
  respDebug : List Nat
  generateTextEnd : Bool
  stopRequested : Bool

/-- The per-character lambda of `LlmSession::ResponseWithHistory`
(lines 276-295): identical to the `Response` lambda except that the
finalized text is discarded instead of being appended to `history_`. -/
def handleCharExt (isR1 : Bool) (onProgress : List Nat → Bool → Bool)
    (st : ExtRunState) (c : List Nat) : ExtRunState :=
  let isEop := (findSub END_OF_PROMPT c).isSome
  let st1 :=
    if !isEop then { st with responseBuffer := st.responseBuffer ++ c }
    else
      let responseResult := st.responseBuffer
      let rr1 := if isR1 then getR1AssistantString responseResult
        else responseResult
      let _rr2 := trimLeadingWhitespace (deleteThinkPart rr1)
      { st with respDebug := responseResult }
  let userStopRequested := onProgress c isEop
  { st1 with generateTextEnd := isEop, stopRequested := userStopRequested }

def feedChunkExt (isR1 : Bool) (onProgress : List Nat → Bool → Bool)
    (st : ExtRunState) (chunk : List Nat) : ExtRunState :=
  let r := processStream st.decoderBuf chunk
  r.1.foldl (handleCharExt isR1 onProgress) { st with decoderBuf := r.2 }

def extendLoopExt (isR1 : Bool) (onProgress : List Nat → Bool → Bool)
    (genChunks : Nat → List (List Nat)) :
    Nat → Nat → ExtRunState → ExtRunState × Nat
  | 0, _, st => (st, 0)
  | fuel + 1, i, st =>
    if st.stopRequested || st.generateTextEnd then (st, 0)
    else
      let st1 := (genChunks i).foldl (feedChunkExt isR1 onProgress) st
      let r := extendLoopExt isR1 onProgress genChunks fuel (i + 1) st1
      (r.1, r.2 + 1)

/-- ASCII bytes of a role string, for the debug-prompt formatting. -/
def strBytes (s : String) : List Nat := s.data.map Char.toNat

/-- `LlmSession::ResponseWithHistory` (lines 257-323): runs the state
machine against a private copy of the caller-supplied history; `history_`
is never mentioned. -/
def ResponseWithHistory (sess : LlmSessionState) (fullHistory : List Turn)
    (onProgress : List Nat → Bool → Bool)
    (respondChunks : List (List Nat)) (genChunks : Nat → List (List Nat)) :
    GenResult :=
  if !sess.loaded then
    { ctx := none, sess := sess, respondCalls := 0, generateCalls := 0,
      audioCalled := false }
  else
    let tempHistory : List Turn := fullHistory
    let st0 : ExtRunState :=
      { decoderBuf := []
        responseBuffer := []
        respDebug := sess.respDebug
        generateTextEnd := false
        stopRequested := false }
    let promptDbg :=
      (tempHistory.map (fun t =>
        strBytes "[" ++ strBytes t.1 ++ strBytes "]: " ++ t.2 ++ [10])).flatten
    let st1 := respondChunks.foldl (feedChunkExt sess.isR1 onProgress) st0
    let lr := extendLoopExt sess.isR1 onProgress genChunks
      (sess.maxNewTokens - 1).toNat 0 st1
    let st2 := lr.1
    let sessF : LlmSessionState :=
      { sess with
        promptDebug := promptDbg
        respDebug := st2.respDebug
        stopRequested := st2.stopRequested
        generateTextEnd := st2.generateTextEnd }
    { ctx := some ()
      sess := sessF
      respondCalls := 1
      generateCalls := lr.2
      audioCalled := !st2.stopRequested && sess.enableAudioOutput }

/-- `LlmSession::Reset` (line 62): `history_.resize(1)`. -/
def Reset (sess : LlmSessionState) : LlmSessionState :=
  { sess with history := resize1 sess.history }

/-- `LlmSession::clearHistory` (lines 325-334): keep the first
`numToKeep` turns (clamped at 0) and clear the debug prompt. -/
def clearHistory (sess : LlmSessionState) (numToKeep : Int) :
    LlmSessionState :=
  let n := (if numToKeep < 0 then 0 else numToKeep).toNat
  { sess with
    history := if n < sess.history.length then sess.history.take n
      else sess.history
    promptDebug := [] }

/-- `LlmSession::SetMaxNewTokens`. -/
def SetMaxNewTokens (sess : LlmSessionState) (i : Int) : LlmSessionState :=
  { sess with maxNewTokens := i }

/-- `LlmSession::setSystemPrompt` (lines 219-226). -/
def setSystemPrompt (sess : LlmSessionState) (systemPrompt : List Nat) :
    LlmSessionState :=
  let sess1 := { sess with systemPrompt := systemPrompt }
  if 1 < sess.history.length then
    { sess1 with
      history :=
        match sess.history with
        | [] => []
        | t :: ts => (t.1, GetSystemPromptString systemPrompt sess.isR1) :: ts }
  else
    { sess1 with
      history := sess.history ++
        [("system", GetSystemPromptString systemPrompt sess.isR1)] }

/-- `LlmSession::enableAudioOutput`. -/
def enableAudioOutput (sess : LlmSessionState) (enable : Bool) :
    LlmSessionState :=
  { sess with enableAudioOutput := enable }

/-- `LlmSession::SetAssistantPrompt` (lines 228-234): stores the template
in `current_config_` and, if an engine is loaded, re-sends the config; the
closing `MNN_DEBUG("dumped config: %s", llm_->dump_config().c_str())` on
line 233 is OUTSIDE the `if (llm_)` guard (`MNN_DEBUG` is a variadic
function call, so its arguments are always evaluated), so the call
dereferences a null `llm_` when invoked before `Load`; `none` models that
crash. -/
def SetAssistantPrompt (sess : LlmSessionState) (assistantPrompt : List Nat) :
    Option LlmSessionState :=
  let sess1 := { sess with assistantPromptTemplate := some assistantPrompt }
  if sess1.loaded then some sess1 else none

/-! ## Theorems about the session -/

/-- Every character the scanner emits is at most 4 bytes long. -/
theorem emitted_length_le_four :
    ∀ t : List Nat, ∀ c ∈ (processCompleteCharacters t).1, c.length ≤ 4 := by
  have main : ∀ n t, List.length t ≤ n →
      ∀ c ∈ (processCompleteCharacters t).1, c.length ≤ 4 := by
    intro n
    induction n with
    | zero =>
      intro t ht c hc
      have : t = [] := List.eq_nil_of_length_eq_zero (Nat.le_zero.mp ht)
      subst this
      rw [pcc_nil] at hc
      simp at hc
    | succ m ih =>
      intro t ht c hc
      match t with
      | [] =>
        rw [pcc_nil] at hc
        simp at hc
      | b :: rest =>
        simp only [List.length_cons] at ht
        by_cases hv : isValidUtf8Start b = false
        · rw [pcc_skip rest hv] at hc
          exact ih rest (by omega) c hc
        · have hv' : isValidUtf8Start b = true := by simpa using hv
          rcases utf8CharLength_isSome_of_start hv' with ⟨L, hL⟩
          by_cases hinc : rest.length + 1 < L
          · rw [pcc_incomplete rest hL hinc] at hc
            simp at hc
          · have hge : L ≤ rest.length + 1 := by omega
            by_cases hcont :
                (((b :: rest).take L).drop 1).all isUtf8Continuation = true
            · rw [pcc_emit rest hL hge hcont] at hc
              rcases List.mem_cons.mp hc with h | h
              · subst h
                have := (utf8CharLength_bounds hL).2
                calc ((b :: rest).take L).length ≤ L := by
                      simpa using List.length_take_le L (b :: rest)
                  _ ≤ 4 := this
              · have hlen : ((b :: rest).drop L).length ≤ m := by
                  simp only [List.length_drop, List.length_cons]
                  have := (utf8CharLength_bounds hL).1
                  omega
                exact ih _ hlen c h
            · have hcont' :
                  (((b :: rest).take L).drop 1).all isUtf8Continuation =
                    false := by simpa using hcont
              rw [pcc_badcont rest hL hge hcont'] at hc
              exact ih rest (by omega) c hc
  exact fun t => main t.length t (Nat.le_refl _)

/-- `std::string::find` fails when the needle is longer than the hay. -/
theorem findSub_eq_none_of_short (needle : List Nat) :
    ∀ hay : List Nat, hay.length < needle.length →
      findSub needle hay = none := by
  intro hay
  induction hay with
  | nil =>
    intro h
    have hne : needle.isPrefixOf ([] : List Nat) = false := by
      cases needle with
      | nil => simp at h
      | cons a as => rfl
    unfold findSub
    rw [hne]
    rfl
  | cons b rest ih =>
    intro h
    simp only [List.length_cons] at h
    have hpre : needle.isPrefixOf (b :: rest) = false := by
      by_contra hc
      have : needle.isPrefixOf (b :: rest) = true := by
        revert hc
        cases needle.isPrefixOf (b :: rest) <;> simp
      have hle := (List.isPrefixOf_iff_prefix.mp this).length_le
      simp only [List.length_cons] at hle
      omega
    unfold findSub
    rw [hpre]
    simp only [Bool.false_eq_true, if_false]
    rw [ih (by omega)]
    rfl

/-- The per-character sentinel test of both streaming lambdas can never
succeed: the sentinel `"<eop>"` is 5 bytes but every decoded character is
at most 4 bytes. -/
theorem eop_never_found_in_char :
    ∀ t : List Nat, ∀ c ∈ (processCompleteCharacters t).1,
      findSub END_OF_PROMPT c = none := by
  intro t c hc
  exact findSub_eq_none_of_short END_OF_PROMPT c
    (by have := emitted_length_le_four t c hc; simp [END_OF_PROMPT]; omega)

/-- The session used for the C1 run: loaded, plain dialect, history kept,
`max_new_tokens` 1. -/
def c1Session : LlmSessionState := Load (initSession (some 1) none true false [])

/-- C1 (code bug): the engine emits `"Hi<eop>"`; the sentinel bytes do
appear in the decoded character stream (first conjunct), yet the run ends
with the generation-ended flag still false and no Assistant turn appended
to history — the per-character classifier can never see the 5-byte
sentinel inside a character of at most 4 bytes, so the claimed
finalization never fires. -/
theorem c1_sentinel_detection_dead :
    (findSub END_OF_PROMPT
        ((processCompleteCharacters ([72, 105] ++ END_OF_PROMPT)).1.flatten)).isSome
        = true ∧
      (Response c1Session [] (fun _ _ => false) [[72, 105] ++ END_OF_PROMPT]
          (fun _ => [])).sess.generateTextEnd = false ∧
      ((Response c1Session [] (fun _ _ => false) [[72, 105] ++ END_OF_PROMPT]
          (fun _ => [])).sess.history.all (fun t => t.1 != "assistant"))
        = true := by
  decide

/-- The session before `Load`: `llm_` is null. -/
def unloadedSession : LlmSessionState := initSession none none true false []

/-- C3 (code bug): `Response` and `ResponseWithHistory` do return null
before load, but `SetAssistantPrompt` invoked before load dereferences the
null `llm_` in its unguarded `llm_->dump_config()` debug-log call
(modelled as `none`), so not every pre-load operation completes
harmlessly. -/
theorem c3_not_loaded_behaviour :
    (Response unloadedSession [] (fun _ _ => false) [] (fun _ => [])).ctx.isNone
        = true ∧
      (ResponseWithHistory unloadedSession [] (fun _ _ => false) []
          (fun _ => [])).ctx.isNone = true ∧
      (SetMaxNewTokens unloadedSession 7).maxNewTokens = 7 ∧
      (setSystemPrompt unloadedSession [97]).systemPrompt = [97] ∧
      (SetAssistantPrompt unloadedSession [97]).isNone = true := by
  decide

/-- If the stop flag is set, the extension loop issues no generate call. -/
theorem extendLoop_stopped (isR1 : Bool) (onProgress : List Nat → Bool → Bool)
    (genChunks : Nat → List (List Nat)) (fuel i : Nat) (st : RunState)
    (h : st.stopRequested = true) :
    extendLoop isR1 onProgress genChunks fuel i st = (st, 0) := by
  cases fuel with
  | zero => rfl
  | succ f => simp [extendLoop, h]

/-- The session used for the C4 counterexample: loaded, `max_new_tokens`
2. -/
def c4Session : LlmSessionState :=
  SetMaxNewTokens (Load (initSession none none true false [])) 2

/-- C4 counterexample: the engine's response pass delivers the two ASCII
characters `a`, `b`; the progress callback returns the stop signal on the
first character and false on the second.  Because the run's stop flag is
overwritten on every delivered character, the run ends with the stop flag
clear and one `generate` increment is issued — contradicting the claim
that a stop on the first character ends the run with the flag set and no
increments regardless of later callback returns. -/
theorem c4_counterexample :
    (Response c4Session [] (fun c _ => c == [97]) [[97, 98]]
        (fun _ => [])).generateCalls = 1 ∧
      (Response c4Session [] (fun c _ => c == [97]) [[97, 98]]
          (fun _ => [])).sess.stopRequested = false := by
  decide

/-- C4 amended: if the stop flag is set at the end of the response pass —
in particular when the callback returns the stop signal on the first
delivered character and no later character overwrites it — the run ends
with the stop flag set and no `generate` increments are issued, regardless
of the configured max-new-tokens. -/
theorem c4_stop_ends_run (sess : LlmSessionState) (prompt : List Nat)
    (onProgress : List Nat → Bool → Bool) (respondChunks : List (List Nat))
    (genChunks : Nat → List (List Nat))
    (hl : sess.loaded = true)
    (hstop : (responsePassState sess.isR1 onProgress
        (initialRunState sess prompt) respondChunks).stopRequested = true) :
    (Response sess prompt onProgress respondChunks genChunks).generateCalls
        = 0 ∧
      (Response sess prompt onProgress respondChunks
          genChunks).sess.stopRequested = true := by
  unfold Response
  rw [hl]
  simp only [Bool.not_true, Bool.false_eq_true, if_false]
  rw [extendLoop_stopped _ _ _ _ _ _ hstop]
  exact ⟨rfl, hstop⟩

/-- The session used for the C4/C6 witnesses: loaded, default config. -/
def defaultLoadedSession : LlmSessionState :=
  Load (initSession none none true false [])

theorem c4_stop_ends_run_witness :
    defaultLoadedSession.loaded = true ∧
      (responsePassState defaultLoadedSession.isR1 (fun _ _ => true)
          (initialRunState defaultLoadedSession []) [[97]]).stopRequested
        = true ∧
      ((Response defaultLoadedSession [] (fun _ _ => true) [[97]]
          (fun _ => [[98]])).generateCalls = 0 ∧
        (Response defaultLoadedSession [] (fun _ _ => true) [[97]]
            (fun _ => [[98]])).sess.stopRequested = true) :=
  ⟨rfl, by decide,
   c4_stop_ends_run defaultLoadedSession [] (fun _ _ => true) [[97]]
     (fun _ => [[98]]) rfl (by decide)⟩

/-- C5: `ResponseWithHistory` leaves the persisted history untouched, for
every session state, caller-supplied history, callback and engine
behaviour. -/
theorem c5_external_history_isolation (sess : LlmSessionState)
    (fullHistory : List Turn) (onProgress : List Nat → Bool → Bool)
    (respondChunks : List (List Nat)) (genChunks : Nat → List (List Nat)) :
    (ResponseWithHistory sess fullHistory onProgress respondChunks
        genChunks).sess.history = sess.history := by
  unfold ResponseWithHistory
  by_cases hl : sess.loaded <;> simp [hl]

/-- C6: with `max_new_tokens = 1`, both generation runs issue exactly one
response pass and zero extension (`generate`) iterations, whatever the
engine streams and whatever the callback answers. -/
theorem c6_token_budget_boundary (sess : LlmSessionState) (prompt : List Nat)
    (fullHistory : List Turn) (onProgress : List Nat → Bool → Bool)
    (respondChunks : List (List Nat)) (genChunks : Nat → List (List Nat))
    (hl : sess.loaded = true) (hm : sess.maxNewTokens = 1) :
    (Response sess prompt onProgress respondChunks genChunks).respondCalls
        = 1 ∧
      (Response sess prompt onProgress respondChunks genChunks).generateCalls
        = 0 ∧
      (ResponseWithHistory sess fullHistory onProgress respondChunks
          genChunks).respondCalls = 1 ∧
      (ResponseWithHistory sess fullHistory onProgress respondChunks
          genChunks).generateCalls = 0 := by
  have hfuel : (sess.maxNewTokens - 1).toNat = 0 := by rw [hm]; rfl
  unfold Response ResponseWithHistory
  simp [hl, hfuel, extendLoop, extendLoopExt]

/-- The session used for the C6 witness: loaded, `max_new_tokens` 1 from
the configuration. -/
def sessionMax1 : LlmSessionState := Load (initSession (some 1) none true false [])

theorem c6_token_budget_boundary_witness :
    sessionMax1.loaded = true ∧ sessionMax1.maxNewTokens = 1 ∧
      ((Response sessionMax1 [] (fun _ _ => false) [[97]]
            (fun _ => [[98]])).respondCalls = 1 ∧
        (Response sessionMax1 [] (fun _ _ => false) [[97]]
            (fun _ => [[98]])).generateCalls = 0 ∧
        (ResponseWithHistory sessionMax1 [] (fun _ _ => false) [[97]]
            (fun _ => [[98]])).respondCalls = 1 ∧
        (ResponseWithHistory sessionMax1 [] (fun _ _ => false) [[97]]
            (fun _ => [[98]])).generateCalls = 0) :=
  ⟨rfl, by decide,
   c6_token_budget_boundary sessionMax1 [] [] (fun _ _ => false) [[97]]
     (fun _ => [[98]]) rfl (by decide)⟩

/-- C9 counterexample: `clearHistory(0)` empties the history; `Reset`'s
`resize(1)` then inserts one default-constructed pair, so the single
remaining turn has the empty role, not System.  The state is reached by
constructor → `Load` → `clearHistory 0` → `Reset`. -/
theorem c9_counterexample :
    (Reset (clearHistory (Load (initSession none none true false [])) 0)).history
        = [("", [])] ∧
      ("" : String) ≠ "system" := by
  decide

/-- C9 amended: whenever the pre-`Reset` history is non-empty and its
first turn has role System — which holds in every state not previously
emptied through `clearHistory(0)` — `Reset` leaves exactly that one System
turn; after `clearHistory(0)` the single turn left by `Reset` is a
default-constructed pair with an empty role instead. -/
theorem c9_reset_amended (sess : LlmSessionState) (t : Turn) (rest : List Turn)
    (hh : sess.history = t :: rest) (hrole : t.1 = "system") :
    (Reset sess).history = [t] ∧
      (Reset sess).history.length = 1 ∧
      ((Reset sess).history.all (fun u => u.1 == "system")) = true := by
  unfold Reset resize1
  rw [hh]
  simp [hrole]

theorem c9_reset_amended_witness :
    defaultLoadedSession.history =
        ("system", DEFAULT_SYSTEM_PROMPT) :: [] ∧
      ("system", DEFAULT_SYSTEM_PROMPT).1 = "system" ∧
      ((Reset defaultLoadedSession).history =
          [("system", DEFAULT_SYSTEM_PROMPT)] ∧
        (Reset defaultLoadedSession).history.length = 1 ∧
        ((Reset defaultLoadedSession).history.all
            (fun u => u.1 == "system")) = true) :=
  ⟨by decide, rfl,
   c9_reset_amended defaultLoadedSession ("system", DEFAULT_SYSTEM_PROMPT) []
     (by decide) rfl⟩

end Mnn
